import Mathlib

/-!
Verification of the dependency topology engine
(`src/pages/analysis/components/TopologyView.tsx`).

Shallow embedding conventions:
- JavaScript strings are Lean `String`s (a list of characters).
- `Map<string, T>` objects read with `get(k) || default` are modelled as total
  functions `String → T` with the default as initial value, since the JS code
  treats a missing key and a key bound to the falsy default identically.
- `Set<string>` objects used only for membership are modelled as `List String`
  with `∈` / `contains` (insertion-time deduplication does not affect
  membership).
- The recursive `buildTree` uses a fuel parameter for totality; `buildForest`
  supplies fuel larger than any possible recursion depth
  (`nodes.length + 2 * edges.length + 1`; along one call chain all visited
  ids are distinct and drawn from the nodes and edge endpoints).
-/

/-- An edge of the dependency graph: `{ source, target }` in the source. -/
structure Edge where
  source : String
  target : String
deriving DecidableEq

/-- The input contract `DependencyGraph = { nodes: string[], edges: {source,target}[] }`. -/
structure DependencyGraph where
  nodes : List String
  edges : List Edge
deriving DecidableEq

/-- Index of the last occurrence of a character in a character list, as in
JavaScript `path.lastIndexOf("/")` (which returns -1 when absent, modelled
by `none`). -/
def lastIdxOf (c : Char) : List Char → Option Nat
  | [] => none
  | a :: rest =>
    match lastIdxOf c rest with
    | some i => some (i + 1)
    | none => if a = c then some 0 else none

/-- `getDir` from `aggregateToDirectory` (TopologyView.tsx lines 47-50):
the substring before the last `/`, or the sentinel `"(root)"` when the
path contains no `/`. The same expression computes the `group` field of a
render-time node (line 149). -/
def getDir (path : String) : String :=
  match lastIdxOf '/' path.data with
  | some idx => { data := path.data.take idx }
  | none => "(root)"

/-- Insertion into a JS `Set` kept as an insertion-ordered duplicate-free list. -/
def setAdd (acc : List String) (s : String) : List String :=
  if s ∈ acc then acc else acc ++ [s]

/-- The directory node set `Array.from(dirSet)` (lines 52-54): distinct
directories of the input nodes in first-occurrence order. -/
def dirNodes (g : DependencyGraph) : List String :=
  g.nodes.foldl (fun acc n => setAdd acc (getDir n)) []

/-- Both endpoints of an edge mapped to their directories. -/
def mapEdge (e : Edge) : Edge :=
  { source := getDir e.source, target := getDir e.target }

/-- The deduplication key `` `${srcDir}->${tgtDir}` `` (line 63). -/
def keyOf (e : Edge) : String :=
  e.source ++ "->" ++ e.target

/-- The edge-aggregation loop of `aggregateToDirectory` (lines 57-68):
drop directory-level self edges, then keep the first edge per key string,
threading the `edgeSet` of already-seen keys. -/
def aggEdges : List Edge → List String → List Edge
  | [], _ => []
  | e :: rest, seen =>
    let s := getDir e.source
    let t := getDir e.target
    if s = t then aggEdges rest seen
    else if (s ++ "->" ++ t) ∈ seen then aggEdges rest seen
    else { source := s, target := t } :: aggEdges rest ((s ++ "->" ++ t) :: seen)

/-- `aggregateToDirectory` (lines 46-71). -/
def aggregateToDirectory (g : DependencyGraph) : DependencyGraph :=
  { nodes := dirNodes g, edges := aggEdges g.edges [] }

/-- The `connected` set of `filterIsolatedNodes` (lines 75-79): every string
occurring as an edge endpoint. -/
def connectedList : List Edge → List String
  | [] => []
  | e :: rest => e.source :: e.target :: connectedList rest

/-- `filterIsolatedNodes` (lines 74-84): keep the nodes occurring as an edge
endpoint; the edge list is passed through unchanged. -/
def filterIsolatedNodes (g : DependencyGraph) : DependencyGraph :=
  { nodes := g.nodes.filter (fun n => (connectedList g.edges).contains n),
    edges := g.edges }

/-- The granularity toggle of the view. -/
inductive Granularity
  | file
  | directory
deriving DecidableEq

/-- The granularity branch of `getGraphData` (line 101). -/
def baseGraph (gran : Granularity) (g : DependencyGraph) : DependencyGraph :=
  match gran with
  | Granularity.file => g
  | Granularity.directory => aggregateToDirectory g

/-- `getGraphData` (lines 100-103): granularity branch, then the optional
isolation filter. -/
def getGraphData (gran : Granularity) (hideIsolated : Bool) (g : DependencyGraph) :
    DependencyGraph :=
  if hideIsolated then filterIsolatedNodes (baseGraph gran g) else baseGraph gran g

/-- One `map.set(k, (map.get(k) || 0) + 1)` step on a counter map. -/
def bump (f : String → Nat) (k : String) : String → Nat :=
  fun y => if y = k then f k + 1 else f y

/-- The `degreeMap` of `renderForceGraph` (lines 139-144): every edge
increments both its endpoints. Initialising the listed nodes to 0 is the
identity in the total-function model. -/
def degreeFn (g : DependencyGraph) : String → Nat :=
  g.edges.foldl (fun f e => bump (bump f e.source) e.target) (fun _ => 0)

/-- Sum of the computed degrees over the graph's node list. -/
def sumDegrees (g : DependencyGraph) : Nat :=
  (g.nodes.map (degreeFn g)).sum

/-- Render-time node `{id, group, degree}` (lines 31-37). -/
structure GraphNode where
  id : String
  group : String
  degree : Nat
deriving DecidableEq

/-- The `nodes` array built for the force layout (lines 147-151). -/
def forceNodes (g : DependencyGraph) : List GraphNode :=
  g.nodes.map (fun i => { id := i, group := getDir i, degree := degreeFn g i })

/-- The id set of `nodeMap` (line 152). -/
def nodeIds (g : DependencyGraph) : List String :=
  (forceNodes g).map (fun n => n.id)

/-- The `links` array (lines 153-155): edges are kept only when both
endpoints are in `nodeMap`. -/
def forceLinks (g : DependencyGraph) : List Edge :=
  g.edges.filter (fun e => (nodeIds g).contains e.source && (nodeIds g).contains e.target)

/-- Number of edges with both endpoints present in the node list. -/
def bothPresentCount (g : DependencyGraph) : Nat :=
  (g.edges.filter (fun e => g.nodes.contains e.source && g.nodes.contains e.target)).length

/-- Number of edges with exactly one endpoint present in the node list. -/
def onePresentCount (g : DependencyGraph) : Nat :=
  (g.edges.filter (fun e => g.nodes.contains e.source != g.nodes.contains e.target)).length

/-- The `inDegree` map of `renderTreeGraph` (lines 303-307): only the edge
target is incremented. -/
def inDegreeFn (g : DependencyGraph) : String → Nat :=
  g.edges.foldl (fun f e => bump f e.target) (fun _ => 0)

/-- The `children` adjacency map (lines 309-313): each edge appends its
target to its source's list, in edge order, duplicates permitted. -/
def childrenFn (g : DependencyGraph) : String → List String :=
  g.edges.foldl
    (fun f e => fun y => if y = e.source then f e.source ++ [e.target] else f y)
    (fun _ => [])

/-- `roots` (line 316): the nodes of in-degree 0. -/
def rootsOf (g : DependencyGraph) : List String :=
  g.nodes.filter (fun n => inDegreeFn g n == 0)

/-- The candidate root list `roots.length > 0 ? roots : [data.nodes[0]]`
(line 331). `data.nodes[0]` is modelled by `take 1`; `renderTreeGraph`
returns early on an empty node list (line 300) before reaching this
expression. -/
def candidateRoots (g : DependencyGraph) : List String :=
  if (rootsOf g).length > 0 then rootsOf g else g.nodes.take 1

/-- The hierarchical `TreeNode { name, children? }` (line 318); an absent
`children` field is modelled by `[]`. -/
inductive TreeNode
  | mk (name : String) (children : List TreeNode)

/-- Name of a tree node. -/
def TreeNode.name : TreeNode → String
  | TreeNode.mk n _ => n

/-- Children of a tree node. -/
def TreeNode.children : TreeNode → List TreeNode
  | TreeNode.mk _ cs => cs

/-- `buildTree` (lines 320-328) with the mutable `visited` set threaded
through explicitly. The id is added to `visited` first; the children list
is then filtered against `visited` eagerly, and only afterwards is each
remaining child recursed into (threading the set through the sequential
`kids.map`). Fuel decreases one level per call only for totality. -/
def buildTreeAux (ch : String → List String) :
    Nat → String → List String → TreeNode × List String
  | 0, i, vis => (TreeNode.mk i [], i :: vis)
  | fuel + 1, i, vis =>
    let vis1 := i :: vis
    let kids := (ch i).filter (fun c => ! vis1.contains c)
    let res := kids.foldl
      (fun acc c =>
        let r := buildTreeAux ch fuel c acc.2
        (acc.1 ++ [r.1], r.2))
      (([] : List TreeNode), vis1)
    (TreeNode.mk i res.1, res.2)

/-- Fuel exceeding any possible `buildTree` recursion depth for `g`. -/
def forestFuel (g : DependencyGraph) : Nat :=
  g.nodes.length + 2 * g.edges.length + 1

/-- The whole forest construction of `renderTreeGraph` (lines 303-336):
sub-trees for every candidate root sharing one visited set, then one
singleton per still-unvisited node, all under the synthetic super-root
`"(project)"`. -/
def buildForest (g : DependencyGraph) : TreeNode :=
  let ch := childrenFn g
  let res := (candidateRoots g).foldl
    (fun acc r =>
      let t := buildTreeAux ch (forestFuel g) r acc.2
      (acc.1 ++ [t.1], t.2))
    (([] : List TreeNode), ([] : List String))
  let unvisited := g.nodes.filter (fun n => ! res.2.contains n)
  TreeNode.mk ("(project)") (res.1 ++ unvisited.map (fun n => TreeNode.mk n []))

mutual

/-- All names of a tree in depth-first order (the node occurrences the
layout renders). -/
def treeNames : TreeNode → List String
  | TreeNode.mk n cs => n :: treeNamesList cs

/-- Names of a list of trees, in order. -/
def treeNamesList : List TreeNode → List String
  | [] => []
  | t :: ts => treeNames t ++ treeNamesList ts

end

/-- `SelectionDetail` (lines 106-112). -/
structure SelectionDetail where
  id : String
  dependsOn : List String
  dependedBy : List String
deriving DecidableEq

/-- `nodeDetail` (lines 106-112). JavaScript `if (!selectedNode) return null`
is true both for `null` and for the empty string, hence the extra test on
`""`. The lists scan only the displayed edge list. -/
def nodeDetail (selectedNode : Option String) (data : DependencyGraph) :
    Option SelectionDetail :=
  match selectedNode with
  | none => none
  | some i =>
    if i = "" then none
    else
      some
        { id := i,
          dependsOn := (data.edges.filter (fun e => e.source == i)).map (fun e => e.target),
          dependedBy := (data.edges.filter (fun e => e.target == i)).map (fun e => e.source) }

/-- Spec-side description of the edge deduplication: keep the first edge per
key among the directory-mapped, self-loop-free edges. The first non-self
input edge whose mapped key is `k`, already mapped to directories. -/
def firstWithKey (es : List Edge) (k : String) : Option Edge :=
  ((es.filter
      (fun e => (getDir e.source != getDir e.target) && (keyOf (mapEdge e) == k))).head?).map
    mapEdge

/-! Helper lemmas. -/

theorem contains_iff_mem (l : List String) (a : String) : l.contains a = true ↔ a ∈ l := by
  simp [List.contains, List.elem_iff]

theorem mem_setAdd (acc : List String) (s a : String) :
    a ∈ setAdd acc s ↔ a ∈ acc ∨ a = s := by
  by_cases h : s ∈ acc
  · simp only [setAdd, if_pos h]
    constructor
    · exact fun ha => Or.inl ha
    · rintro (ha | rfl)
      · exact ha
      · exact h
  · simp [setAdd, if_neg h]

theorem nodup_setAdd (acc : List String) (s : String) (h : acc.Nodup) :
    (setAdd acc s).Nodup := by
  by_cases hs : s ∈ acc
  · simpa [setAdd, if_pos hs] using h
  · simp only [setAdd, if_neg hs]
    exact List.Nodup.append h (List.nodup_singleton s) (by simpa using hs)

theorem dirFold_mem (ns : List String) :
    ∀ (acc : List String) (d : String),
      d ∈ ns.foldl (fun acc n => setAdd acc (getDir n)) acc ↔
        d ∈ acc ∨ ∃ n ∈ ns, getDir n = d := by
  induction ns with
  | nil => intro acc d; simp
  | cons n rest ih =>
    intro acc d
    rw [List.foldl_cons, ih, mem_setAdd]
    constructor
    · rintro ((hd | rfl) | ⟨m, hm, hdm⟩)
      · exact Or.inl hd
      · exact Or.inr ⟨n, List.mem_cons_self n rest, rfl⟩
      · exact Or.inr ⟨m, List.mem_cons_of_mem n hm, hdm⟩
    · rintro (hd | ⟨m, hm, hdm⟩)
      · exact Or.inl (Or.inl hd)
      · rcases List.mem_cons.mp hm with rfl | hm2
        · exact Or.inl (Or.inr hdm.symm)
        · exact Or.inr ⟨m, hm2, hdm⟩

theorem dirFold_nodup (ns : List String) :
    ∀ acc : List String, acc.Nodup →
      (ns.foldl (fun acc n => setAdd acc (getDir n)) acc).Nodup := by
  induction ns with
  | nil => intro acc h; simpa using h
  | cons n rest ih =>
    intro acc h
    rw [List.foldl_cons]
    exact ih _ (nodup_setAdd acc (getDir n) h)

theorem mem_dirNodes (g : DependencyGraph) (d : String) :
    d ∈ (aggregateToDirectory g).nodes ↔ ∃ n ∈ g.nodes, getDir n = d := by
  show d ∈ dirNodes g ↔ _
  rw [dirNodes, dirFold_mem]
  simp

theorem nodup_dirNodes (g : DependencyGraph) : (aggregateToDirectory g).nodes.Nodup :=
  dirFold_nodup g.nodes [] List.nodup_nil

theorem keyOf_mapEdge (e : Edge) :
    keyOf (mapEdge e) = getDir e.source ++ "->" ++ getDir e.target := rfl

theorem firstWithKey_nil (k : String) : firstWithKey [] k = none := rfl

theorem firstWithKey_cons (e : Edge) (rest : List Edge) (k : String) :
    firstWithKey (e :: rest) k =
      if (getDir e.source != getDir e.target) && (keyOf (mapEdge e) == k) then
        some (mapEdge e)
      else firstWithKey rest k := by
  rw [firstWithKey, List.filter_cons]
  by_cases h : ((getDir e.source != getDir e.target) && (keyOf (mapEdge e) == k)) = true
  · simp [h, firstWithKey]
  · simp only [Bool.not_eq_true] at h
    simp [h, firstWithKey]

theorem aggEdges_cons (e : Edge) (rest : List Edge) (seen : List String) :
    aggEdges (e :: rest) seen =
      if getDir e.source = getDir e.target then aggEdges rest seen
      else if keyOf (mapEdge e) ∈ seen then aggEdges rest seen
      else mapEdge e :: aggEdges rest (keyOf (mapEdge e) :: seen) := rfl

theorem aggEdges_nonself (p : Edge) :
    ∀ (es : List Edge) (seen : List String), p ∈ aggEdges es seen → p.source ≠ p.target := by
  intro es
  induction es with
  | nil => intro seen h; simp [aggEdges] at h
  | cons e rest ih =>
    intro seen h
    rw [aggEdges_cons] at h
    by_cases hself : getDir e.source = getDir e.target
    · rw [if_pos hself] at h; exact ih seen h
    · rw [if_neg hself] at h
      by_cases hseen : keyOf (mapEdge e) ∈ seen
      · rw [if_pos hseen] at h; exact ih seen h
      · rw [if_neg hseen] at h
        rcases List.mem_cons.mp h with rfl | h2
        · exact hself
        · exact ih _ h2

theorem aggEdges_sound (p : Edge) :
    ∀ (es : List Edge) (seen : List String),
      p ∈ aggEdges es seen → ∃ e ∈ es, mapEdge e = p := by
  intro es
  induction es with
  | nil => intro seen h; simp [aggEdges] at h
  | cons e rest ih =>
    intro seen h
    rw [aggEdges_cons] at h
    by_cases hself : getDir e.source = getDir e.target
    · rw [if_pos hself] at h
      obtain ⟨e2, he2, hm⟩ := ih seen h
      exact ⟨e2, List.mem_cons_of_mem e he2, hm⟩
    · rw [if_neg hself] at h
      by_cases hseen : keyOf (mapEdge e) ∈ seen
      · rw [if_pos hseen] at h
        obtain ⟨e2, he2, hm⟩ := ih seen h
        exact ⟨e2, List.mem_cons_of_mem e he2, hm⟩
      · rw [if_neg hseen] at h
        rcases List.mem_cons.mp h with rfl | h2
        · exact ⟨e, List.mem_cons_self e rest, rfl⟩
        · obtain ⟨e2, he2, hm⟩ := ih _ h2
          exact ⟨e2, List.mem_cons_of_mem e he2, hm⟩

theorem aggEdges_keys (es : List Edge) :
    ∀ seen : List String,
      ((aggEdges es seen).map keyOf).Nodup ∧
        ∀ k ∈ (aggEdges es seen).map keyOf, k ∉ seen := by
  induction es with
  | nil => intro seen; simp [aggEdges]
  | cons e rest ih =>
    intro seen
    rw [aggEdges_cons]
    by_cases hself : getDir e.source = getDir e.target
    · rw [if_pos hself]; exact ih seen
    · rw [if_neg hself]
      by_cases hseen : keyOf (mapEdge e) ∈ seen
      · rw [if_pos hseen]; exact ih seen
      · rw [if_neg hseen]
        obtain ⟨ihnd, ihseen⟩ := ih (keyOf (mapEdge e) :: seen)
        rw [List.map_cons]
        constructor
        · exact List.nodup_cons.mpr
            ⟨fun hmem => (ihseen _ hmem) (List.mem_cons_self _ _), ihnd⟩
        · intro k hk
          rcases List.mem_cons.mp hk with rfl | hk2
          · exact hseen
          · exact fun hks => (ihseen k hk2) (List.mem_cons_of_mem _ hks)

theorem aggEdges_mem_iff (p : Edge) :
    ∀ (es : List Edge) (seen : List String),
      p ∈ aggEdges es seen ↔ keyOf p ∉ seen ∧ firstWithKey es (keyOf p) = some p := by
  intro es
  induction es with
  | nil => intro seen; simp [aggEdges, firstWithKey_nil]
  | cons e rest ih =>
    intro seen
    rw [aggEdges_cons, firstWithKey_cons]
    by_cases hself : getDir e.source = getDir e.target
    · have hpred :
          ((getDir e.source != getDir e.target) && (keyOf (mapEdge e) == keyOf p)) = false := by
        simp [hself]
      rw [if_pos hself, hpred]
      simpa using ih seen
    · by_cases hk : keyOf (mapEdge e) = keyOf p
      · have hpred :
            ((getDir e.source != getDir e.target) && (keyOf (mapEdge e) == keyOf p)) = true := by
          simp [hself, hk]
        rw [if_neg hself, hpred]
        simp only [if_true]
        by_cases hseen : keyOf (mapEdge e) ∈ seen
        · rw [if_pos hseen, ih seen]
          constructor
          · rintro ⟨hns, _⟩; exact absurd (hk ▸ hseen) hns
          · rintro ⟨hns, _⟩; exact absurd (hk ▸ hseen) hns
        · rw [if_neg hseen, List.mem_cons, ih (keyOf (mapEdge e) :: seen)]
          constructor
          · rintro (rfl | ⟨hns, _⟩)
            · exact ⟨hk ▸ hseen, rfl⟩
            · exact absurd (hk ▸ List.mem_cons_self (keyOf (mapEdge e)) seen) hns
          · rintro ⟨hns, hsome⟩
            exact Or.inl (Option.some.inj hsome).symm
      · have hpred :
            ((getDir e.source != getDir e.target) && (keyOf (mapEdge e) == keyOf p)) = false := by
          simp [hk]
        rw [if_neg hself, hpred]
        simp only [Bool.false_eq_true, if_false]
        by_cases hseen : keyOf (mapEdge e) ∈ seen
        · rw [if_pos hseen]; exact ih seen
        · rw [if_neg hseen, List.mem_cons, ih (keyOf (mapEdge e) :: seen)]
          constructor
          · rintro (rfl | ⟨hns, hrest⟩)
            · exact absurd rfl hk
            · exact ⟨fun hmem => hns (List.mem_cons_of_mem _ hmem), hrest⟩
          · rintro ⟨hns, hrest⟩
            refine Or.inr ⟨?_, hrest⟩
            rw [List.mem_cons]
            push_neg
            exact ⟨fun hh => hk hh.symm, hns⟩

theorem sum_map_bump (f : String → Nat) (k : String) :
    ∀ ns : List String, ns.Nodup →
      ((ns.map (bump f k)).sum = (ns.map f).sum + if k ∈ ns then 1 else 0) := by
  intro ns
  induction ns with
  | nil => intro _; simp
  | cons n rest ih =>
    intro hnd
    obtain ⟨hn, hrest⟩ := List.nodup_cons.mp hnd
    by_cases hk : n = k
    · subst hk
      have hmap : rest.map (bump f n) = rest.map f := by
        apply List.map_congr_left
        intro y hy
        have : y ≠ n := fun hyn => hn (hyn ▸ hy)
        simp [bump, this]
      simp only [List.map_cons, List.sum_cons, hmap, bump, if_pos rfl, if_true]
      have : n ∈ n :: rest := List.mem_cons_self n rest
      rw [if_pos this]
      omega
    · have hbn : bump f k n = f n := by simp [bump, hk]
      simp only [List.map_cons, List.sum_cons, hbn, ih hrest]
      have : (k ∈ n :: rest) ↔ (k ∈ rest) := by
        rw [List.mem_cons]
        constructor
        · rintro (rfl | h2)
          · exact absurd rfl hk
          · exact h2
        · exact Or.inr
      by_cases hkr : k ∈ rest
      · rw [if_pos hkr, if_pos (this.mpr hkr)]; omega
      · rw [if_neg hkr, if_neg (fun hh => hkr (this.mp hh))]
        omega

theorem sum_map_degree_fold (ns : List String) (hnd : ns.Nodup) :
    ∀ (es : List Edge) (f : String → Nat),
      ((ns.map (es.foldl (fun f e => bump (bump f e.source) e.target) f)).sum
        = (ns.map f).sum
          + (es.map (fun e =>
              (if e.source ∈ ns then 1 else 0) + (if e.target ∈ ns then 1 else 0))).sum) := by
  intro es
  induction es with
  | nil => intro f; simp
  | cons e rest ih =>
    intro f
    rw [List.foldl_cons, ih, List.map_cons, List.sum_cons]
    have h1 := sum_map_bump f e.source ns hnd
    have h2 := sum_map_bump (bump f e.source) e.target ns hnd
    omega

theorem incidence_split (ns : List String) :
    ∀ es : List Edge,
      (es.map (fun e =>
          (if e.source ∈ ns then 1 else 0) + (if e.target ∈ ns then 1 else 0))).sum
        = 2 * (es.filter (fun e => ns.contains e.source && ns.contains e.target)).length
          + (es.filter (fun e => ns.contains e.source != ns.contains e.target)).length := by
  intro es
  induction es with
  | nil => simp
  | cons e rest ih =>
    have hcs := contains_iff_mem ns e.source
    have hct := contains_iff_mem ns e.target
    rw [List.map_cons, List.sum_cons, List.filter_cons, List.filter_cons]
    by_cases hs : e.source ∈ ns <;> by_cases ht : e.target ∈ ns
    · have h1 : ns.contains e.source = true := hcs.mpr hs
      have h2 : ns.contains e.target = true := hct.mpr ht
      rw [if_pos hs, if_pos ht]
      simp only [h1, h2, Bool.and_self, if_true, bne_self_eq_false, Bool.false_eq_true,
        if_false, List.length_cons]
      omega
    · have h1 : ns.contains e.source = true := hcs.mpr hs
      have h2 : ns.contains e.target = false :=
        Bool.eq_false_iff.mpr (fun hh => ht (hct.mp hh))
      rw [if_pos hs, if_neg ht]
      simp only [h1, h2, Bool.and_false, Bool.false_eq_true, if_false, List.length_cons]
      have hbne : ((true : Bool) != false) = true := rfl
      rw [hbne, if_pos rfl]
      simp only [List.length_cons]
      omega
    · have h1 : ns.contains e.source = false :=
        Bool.eq_false_iff.mpr (fun hh => hs (hcs.mp hh))
      have h2 : ns.contains e.target = true := hct.mpr ht
      rw [if_neg hs, if_pos ht]
      simp only [h1, h2, Bool.false_and, Bool.false_eq_true, if_false]
      have hbne : ((false : Bool) != true) = true := rfl
      rw [hbne, if_pos rfl]
      simp only [List.length_cons]
      omega
    · have h1 : ns.contains e.source = false :=
        Bool.eq_false_iff.mpr (fun hh => hs (hcs.mp hh))
      have h2 : ns.contains e.target = false :=
        Bool.eq_false_iff.mpr (fun hh => ht (hct.mp hh))
      rw [if_neg hs, if_neg ht]
      simp only [h1, h2, Bool.and_false, Bool.false_eq_true, if_false, bne_self_eq_false]
      omega

theorem mem_connectedList (n : String) :
    ∀ es : List Edge, n ∈ connectedList es ↔ ∃ e ∈ es, e.source = n ∨ e.target = n := by
  intro es
  induction es with
  | nil => simp [connectedList]
  | cons e rest ih =>
    simp only [connectedList, List.mem_cons, ih]
    constructor
    · rintro (rfl | rfl | ⟨e2, he2, hor⟩)
      · exact ⟨e, Or.inl rfl, Or.inl rfl⟩
      · exact ⟨e, Or.inl rfl, Or.inr rfl⟩
      · exact ⟨e2, Or.inr he2, hor⟩
    · rintro ⟨e2, (rfl | he2), hor⟩
      · rcases hor with rfl | rfl
        · exact Or.inl rfl
        · exact Or.inr (Or.inl rfl)
      · exact Or.inr (Or.inr ⟨e2, he2, hor⟩)

theorem mem_filterIsolatedNodes (g : DependencyGraph) (n : String) :
    n ∈ (filterIsolatedNodes g).nodes ↔
      n ∈ g.nodes ∧ ∃ e ∈ g.edges, e.source = n ∨ e.target = n := by
  show n ∈ g.nodes.filter _ ↔ _
  rw [List.mem_filter, contains_iff_mem, mem_connectedList]

theorem lastIdxOf_eq_none (c : Char) :
    ∀ l : List Char, c ∉ l → lastIdxOf c l = none := by
  intro l
  induction l with
  | nil => intro _; rfl
  | cons a rest ih =>
    intro h
    have ha : a ≠ c := fun hac => h (hac ▸ List.mem_cons_self a rest)
    have hr : c ∉ rest := fun hc => h (List.mem_cons_of_mem a hc)
    simp [lastIdxOf, ih hr, ha]

theorem getDir_of_no_slash (s : String) (h : '/' ∉ s.data) : getDir s = "(root)" := by
  rw [getDir, lastIdxOf_eq_none '/' s.data h]

theorem dirFold_const (ns : List String) :
    ∀ acc : List String, (∀ n ∈ ns, getDir n = "(root)") → "(root)" ∈ acc →
      ns.foldl (fun acc n => setAdd acc (getDir n)) acc = acc := by
  induction ns with
  | nil => intro acc _ _; rfl
  | cons n rest ih =>
    intro acc hall hacc
    rw [List.foldl_cons]
    have hn : getDir n = "(root)" := hall n (List.mem_cons_self n rest)
    have : setAdd acc (getDir n) = acc := by rw [hn, setAdd, if_pos hacc]
    rw [this]
    exact ih acc (fun m hm => hall m (List.mem_cons_of_mem n hm)) hacc

theorem dirNodes_collapse (g : DependencyGraph) (hne : g.nodes ≠ [])
    (hall : ∀ n ∈ g.nodes, getDir n = "(root)") : dirNodes g = ["(root)"] := by
  rw [dirNodes]
  cases hcase : g.nodes with
  | nil => exact absurd hcase hne
  | cons n rest =>
    have hn : getDir n = "(root)" := hall n (hcase ▸ List.mem_cons_self n rest)
    rw [List.foldl_cons]
    have h1 : setAdd [] (getDir n) = ["(root)"] := by
      rw [hn]; rfl
    rw [h1]
    exact dirFold_const rest ["(root)"]
      (fun m hm => hall m (hcase ▸ List.mem_cons_of_mem n hm))
      (List.mem_cons_self _ _)

theorem aggEdges_allself (es : List Edge) :
    ∀ seen : List String, (∀ e ∈ es, getDir e.source = getDir e.target) →
      aggEdges es seen = [] := by
  induction es with
  | nil => intro _ _; rfl
  | cons e rest ih =>
    intro seen hall
    rw [aggEdges_cons, if_pos (hall e (List.mem_cons_self e rest))]
    exact ih seen (fun e2 he2 => hall e2 (List.mem_cons_of_mem e he2))

theorem dirNodes_length (g : DependencyGraph) :
    (aggregateToDirectory g).nodes.length = ((g.nodes.map getDir).dedup).length := by
  have h1 : (aggregateToDirectory g).nodes.toFinset = ((g.nodes.map getDir).dedup).toFinset := by
    apply Finset.ext
    intro d
    rw [List.mem_toFinset, List.mem_toFinset, List.mem_dedup, List.mem_map, mem_dirNodes]
  have h2 := List.toFinset_card_of_nodup (nodup_dirNodes g)
  have h3 := List.toFinset_card_of_nodup ((g.nodes.map getDir).nodup_dedup)
  rw [← h2, ← h3, h1]

theorem rootsOf_eq_nil (g : DependencyGraph) (h : ∀ n ∈ g.nodes, inDegreeFn g n ≠ 0) :
    rootsOf g = [] := by
  rw [rootsOf, List.filter_eq_nil_iff]
  intro n hn
  simp only [beq_iff_eq]
  exact h n hn

theorem take_one_eq_head (l : List String) (h : l ≠ []) : l.take 1 = [l.head h] := by
  cases l with
  | nil => exact absurd rfl h
  | cons n rest => simp

theorem candidateRoots_fallback (g : DependencyGraph) (hne : g.nodes ≠ [])
    (h : ∀ n ∈ g.nodes, inDegreeFn g n ≠ 0) :
    candidateRoots g = [g.nodes.head hne] := by
  rw [candidateRoots, rootsOf_eq_nil g h]
  simp only [List.length_nil, gt_iff_lt, lt_self_iff_false, if_false]
  exact take_one_eq_head g.nodes hne

theorem nodeIds_eq (g : DependencyGraph) : nodeIds g = g.nodes := by
  rw [nodeIds, forceNodes, List.map_map]
  have hcongr : ∀ x ∈ g.nodes,
      ((fun n : GraphNode => n.id) ∘
        fun i => ({ id := i, group := getDir i, degree := degreeFn g i } : GraphNode)) x = x :=
    fun _ _ => rfl
  rw [List.map_congr_left hcongr]
  exact List.map_id' g.nodes

theorem forceLinks_mem (g : DependencyGraph) (l : Edge) (h : l ∈ forceLinks g) :
    l.source ∈ g.nodes ∧ l.target ∈ g.nodes := by
  rw [forceLinks, List.mem_filter] at h
  obtain ⟨-, hb⟩ := h
  rw [Bool.and_eq_true, contains_iff_mem, contains_iff_mem, nodeIds_eq] at hb
  exact hb

/-! Claim theorems. -/

/-- Claim C1 is the invariant the spec states for the Forest Builder (every
filtered-graph node exactly once, total count equal to the node count), but
the code violates it: on the diamond graph with nodes a, b, c and edges
a→b, a→c, b→c, `buildTree` filters a's children [b, c] against the visited
set before recursing, so after the recursion into b has already visited c,
the pending recursion into c still runs and c is attached twice — 4
graph-node occurrences for a 3-node graph. -/
theorem C1_forest_duplicate :
    treeNames (buildForest ⟨["a", "b", "c"], [⟨"a", "b"⟩, ⟨"a", "c"⟩, ⟨"b", "c"⟩]⟩)
      = ["(project)", "a", "b", "c", "c"]
    ∧ (treeNames (buildForest ⟨["a", "b", "c"], [⟨"a", "b"⟩, ⟨"a", "c"⟩, ⟨"b", "c"⟩]⟩)).count "c"
        = 2
    ∧ (⟨["a", "b", "c"], [⟨"a", "b"⟩, ⟨"a", "c"⟩, ⟨"b", "c"⟩]⟩ : DependencyGraph).nodes.length
        = 3 := by
  decide

/-- Claim C2 counterexample: with node list ["a"] and single edge a→ghost,
the forest computation does traverse through the endpoint "ghost" that is
absent from the node list, attaching it as a tree node rendered by the tree
layout adapter — refuting "do not count or traverse through that endpoint"
and "both layout adapters keep only edges whose two endpoints resolve to a
known node". -/
theorem C2_counterexample :
    treeNames (buildForest ⟨["a"], [⟨"a", "ghost"⟩]⟩) = ["(project)", "a", "ghost"]
    ∧ ("ghost" : String) ∉ (⟨["a"], [⟨"a", "ghost"⟩]⟩ : DependencyGraph).nodes := by
  decide

/-- Claim C2 (amended): the degree computation's map lookups default to 0 and
the rendered force-graph node ids are exactly the graph's node list (missing
endpoints are never rendered as nodes), and the force layout adapter keeps
only edges whose two endpoints resolve to a known node; the forest
computation, however, does traverse through missing endpoints
(`C2_counterexample`). -/
theorem C2_force_adapter_filters :
    (∀ g : DependencyGraph, nodeIds g = g.nodes)
    ∧ (∀ (g : DependencyGraph) (l : Edge), l ∈ forceLinks g →
        l.source ∈ g.nodes ∧ l.target ∈ g.nodes) :=
  ⟨nodeIds_eq, forceLinks_mem⟩

/-- Claim C2 witness: the force adapter keeps the edge a→b of a well-formed
two-node graph and both endpoints are known nodes. -/
theorem C2_witness :
    ((⟨"a", "b"⟩ : Edge) ∈ forceLinks ⟨["a", "b"], [⟨"a", "b"⟩]⟩)
    ∧ ("a" : String) ∈ (⟨["a", "b"], [⟨"a", "b"⟩]⟩ : DependencyGraph).nodes
    ∧ ("b" : String) ∈ (⟨["a", "b"], [⟨"a", "b"⟩]⟩ : DependencyGraph).nodes :=
  ⟨by decide,
    (C2_force_adapter_filters.2 ⟨["a", "b"], [⟨"a", "b"⟩]⟩ ⟨"a", "b"⟩ (by decide)).1,
    (C2_force_adapter_filters.2 ⟨["a", "b"], [⟨"a", "b"⟩]⟩ ⟨"a", "b"⟩ (by decide)).2⟩

/-- Claim C3 counterexample: the deduplication key is the plain string
`srcDir ++ "->" ++ tgtDir`, so the two distinct directory pairs
("a->b", "c") and ("a", "b->c") collide on the key "a->b->c"; the second
pair is dropped entirely even though the claim requires one kept edge per
distinct (sourceDir, targetDir) pair. -/
theorem C3_counterexample :
    (aggregateToDirectory
        ⟨["a->b/x.ts", "c/y.ts", "a/p.ts", "b->c/q.ts"],
          [⟨"a->b/x.ts", "c/y.ts"⟩, ⟨"a/p.ts", "b->c/q.ts"⟩]⟩).edges
      = [⟨"a->b", "c"⟩]
    ∧ mapEdge ⟨"a/p.ts", "b->c/q.ts"⟩ = ⟨"a", "b->c"⟩
    ∧ (⟨"a/p.ts", "b->c/q.ts"⟩ : Edge)
        ∈ (⟨["a->b/x.ts", "c/y.ts", "a/p.ts", "b->c/q.ts"],
            [⟨"a->b/x.ts", "c/y.ts"⟩, ⟨"a/p.ts", "b->c/q.ts"⟩]⟩ : DependencyGraph).edges
    ∧ ("a" : String) ≠ "b->c"
    ∧ (⟨"a", "b->c"⟩ : Edge)
        ∉ (aggregateToDirectory
            ⟨["a->b/x.ts", "c/y.ts", "a/p.ts", "b->c/q.ts"],
              [⟨"a->b/x.ts", "c/y.ts"⟩, ⟨"a/p.ts", "b->c/q.ts"⟩]⟩).edges := by
  decide

/-- Claim C3 (amended): directory aggregation produces exactly the set of
distinct parent directories as its duplicate-free node list, drops every
edge whose source-directory equals its target-directory, and keeps exactly
one edge per distinct deduplication key `srcDir ++ "->" ++ tgtDir` with the
first occurrence winning (output membership is exactly "the first non-self
input edge bearing this key maps to this pair"); the concrete scenario with
nodes ["a/x.ts","a/y.ts","b/z.ts"] and edges [a/x.ts→a/y.ts, a/x.ts→b/z.ts]
yields nodes ["a","b"] and edges [a→b]. -/
theorem C3_aggregation_characterization :
    (∀ (g : DependencyGraph) (d : String),
        d ∈ (aggregateToDirectory g).nodes ↔ ∃ n ∈ g.nodes, getDir n = d)
    ∧ (∀ g : DependencyGraph, (aggregateToDirectory g).nodes.Nodup)
    ∧ (∀ (g : DependencyGraph) (p : Edge), p ∈ (aggregateToDirectory g).edges →
        p.source ≠ p.target)
    ∧ (∀ (g : DependencyGraph) (p : Edge),
        p ∈ (aggregateToDirectory g).edges ↔ firstWithKey g.edges (keyOf p) = some p)
    ∧ (∀ g : DependencyGraph, ((aggregateToDirectory g).edges.map keyOf).Nodup)
    ∧ aggregateToDirectory
          ⟨["a/x.ts", "a/y.ts", "b/z.ts"], [⟨"a/x.ts", "a/y.ts"⟩, ⟨"a/x.ts", "b/z.ts"⟩]⟩
        = ⟨["a", "b"], [⟨"a", "b"⟩]⟩ := by
  refine ⟨mem_dirNodes, nodup_dirNodes, ?_, ?_, ?_, by decide⟩
  · intro g p hp
    exact aggEdges_nonself p g.edges [] hp
  · intro g p
    simpa using aggEdges_mem_iff p g.edges []
  · intro g
    exact (aggEdges_keys g.edges []).1

/-- Claim C3 witness: a concrete aggregated edge is not a self edge. -/
theorem C3_witness :
    ((⟨"a", "b"⟩ : Edge)
        ∈ (aggregateToDirectory ⟨["a/x.ts", "b/z.ts"], [⟨"a/x.ts", "b/z.ts"⟩]⟩).edges)
    ∧ (⟨"a", "b"⟩ : Edge).source ≠ (⟨"a", "b"⟩ : Edge).target :=
  ⟨by decide,
    C3_aggregation_characterization.2.2.1
      ⟨["a/x.ts", "b/z.ts"], [⟨"a/x.ts", "b/z.ts"⟩]⟩ ⟨"a", "b"⟩ (by decide)⟩

/-- Claim C4 counterexample: with node list ["a"] and the dangling edge
a→b, the degree computation still increments the present endpoint a, so the
degree sum is 1 while twice the number of edges with both endpoints present
is 0. -/
theorem C4_counterexample :
    sumDegrees ⟨["a"], [⟨"a", "b"⟩]⟩ = 1
    ∧ bothPresentCount ⟨["a"], [⟨"a", "b"⟩]⟩ = 0
    ∧ sumDegrees ⟨["a"], [⟨"a", "b"⟩]⟩
        ≠ 2 * bothPresentCount ⟨["a"], [⟨"a", "b"⟩]⟩ := by
  decide

/-- Claim C4 (amended): for every graph whose node list is duplicate-free,
the sum of the computed degrees over the graph's nodes equals twice the
number of edges with both endpoints present plus the number of edges with
exactly one endpoint present (each present endpoint of each edge contributes
exactly 1). -/
theorem C4_degree_sum (g : DependencyGraph) (hnd : g.nodes.Nodup) :
    sumDegrees g = 2 * bothPresentCount g + onePresentCount g := by
  simp only [sumDegrees, degreeFn]
  rw [sum_map_degree_fold g.nodes hnd g.edges (fun _ => 0)]
  have h0 : (g.nodes.map (fun _ : String => (0 : Nat))).sum = 0 := by simp
  rw [h0, incidence_split g.nodes g.edges]
  simp only [Nat.zero_add]
  rfl

/-- Claim C4 witness: the amended degree-sum identity at a concrete graph. -/
theorem C4_witness :
    (["a", "b"] : List String).Nodup
    ∧ sumDegrees ⟨["a", "b"], [⟨"a", "b"⟩]⟩
        = 2 * bothPresentCount ⟨["a", "b"], [⟨"a", "b"⟩]⟩
          + onePresentCount ⟨["a", "b"], [⟨"a", "b"⟩]⟩ :=
  ⟨by decide, C4_degree_sum ⟨["a", "b"], [⟨"a", "b"⟩]⟩ (by decide)⟩

/-- Claim C5: the isolation filter keeps exactly the nodes incident to some
edge (removing exactly the isolated ones), never changes the edge list, and
with the flag off `getGraphData` is the identity on the granularity-selected
graph. -/
theorem C5_isolation_filter :
    (∀ (g : DependencyGraph) (n : String),
        n ∈ (filterIsolatedNodes g).nodes ↔
          n ∈ g.nodes ∧ ∃ e ∈ g.edges, e.source = n ∨ e.target = n)
    ∧ (∀ g : DependencyGraph, (filterIsolatedNodes g).edges = g.edges)
    ∧ (∀ (gran : Granularity) (g : DependencyGraph),
        getGraphData gran true g = filterIsolatedNodes (baseGraph gran g))
    ∧ (∀ (gran : Granularity) (g : DependencyGraph),
        getGraphData gran false g = baseGraph gran g) :=
  ⟨mem_filterIsolatedNodes, fun _ => rfl, fun _ _ => rfl, fun _ _ => rfl⟩

/-- Claim C6 counterexample: ⟨["a","b"], [a→b]⟩ is a directory-level graph
(it is itself the aggregation of a file-level graph) whose node ids are leaf
strings with no separator, yet re-applying aggregation does not leave it
unchanged: every separator-free id maps to "(root)", so it collapses to
⟨["(root)"], []⟩. -/
theorem C6_counterexample :
    aggregateToDirectory ⟨["a/x.ts", "b/y.ts"], [⟨"a/x.ts", "b/y.ts"⟩]⟩
      = ⟨["a", "b"], [⟨"a", "b"⟩]⟩
    ∧ aggregateToDirectory ⟨["a", "b"], [⟨"a", "b"⟩]⟩ = ⟨["(root)"], []⟩
    ∧ aggregateToDirectory ⟨["a", "b"], [⟨"a", "b"⟩]⟩ ≠ ⟨["a", "b"], [⟨"a", "b"⟩]⟩ := by
  decide

/-- Claim C6 (amended): aggregation never produces more nodes than the
number of distinct parent directories of the input nodes; re-applying it to
a non-empty graph whose node ids and edge endpoints contain no separator
yields the collapsed graph ⟨["(root)"], []⟩ rather than the graph
unchanged, and that collapsed graph is a fixed point of aggregation. -/
theorem C6_aggregation_node_count :
    (∀ g : DependencyGraph,
        (aggregateToDirectory g).nodes.length ≤ ((g.nodes.map getDir).dedup).length)
    ∧ (∀ g : DependencyGraph, g.nodes ≠ [] →
        (∀ n ∈ g.nodes, '/' ∉ n.data) →
        (∀ e ∈ g.edges, '/' ∉ e.source.data ∧ '/' ∉ e.target.data) →
        aggregateToDirectory g = ⟨["(root)"], []⟩)
    ∧ aggregateToDirectory ⟨["(root)"], []⟩ = ⟨["(root)"], []⟩ := by
  refine ⟨?_, ?_, by decide⟩
  · intro g
    exact le_of_eq (dirNodes_length g)
  · intro g hne hnodes hedges
    have hnodes2 : ∀ n ∈ g.nodes, getDir n = "(root)" :=
      fun n hn => getDir_of_no_slash n (hnodes n hn)
    have hself : ∀ e ∈ g.edges, getDir e.source = getDir e.target := by
      intro e he
      rw [getDir_of_no_slash _ (hedges e he).1, getDir_of_no_slash _ (hedges e he).2]
    have hagg : aggregateToDirectory g = ⟨dirNodes g, aggEdges g.edges []⟩ := rfl
    rw [hagg, dirNodes_collapse g hne hnodes2, aggEdges_allself g.edges [] hself]

/-- Claim C6 witness: the collapse applied to the concrete leaf-string
graph ⟨["a","b"], [a→b]⟩. -/
theorem C6_witness :
    ((⟨["a", "b"], [⟨"a", "b"⟩]⟩ : DependencyGraph).nodes ≠ [])
    ∧ aggregateToDirectory ⟨["a", "b"], [⟨"a", "b"⟩]⟩ = ⟨["(root)"], []⟩ :=
  ⟨by decide,
    C6_aggregation_node_count.2.1 ⟨["a", "b"], [⟨"a", "b"⟩]⟩
      (by decide) (by decide) (by decide)⟩

/-- Claim C7 counterexample: with node list ["a/x"] and the dangling edge
a/x→b/y, the aggregated output has the edge a→b but its target "b" is not
in the output node list ["a"]. -/
theorem C7_counterexample :
    (aggregateToDirectory ⟨["a/x"], [⟨"a/x", "b/y"⟩]⟩).edges = [⟨"a", "b"⟩]
    ∧ (aggregateToDirectory ⟨["a/x"], [⟨"a/x", "b/y"⟩]⟩).nodes = ["a"]
    ∧ ("b" : String) ∉ (aggregateToDirectory ⟨["a/x"], [⟨"a/x", "b/y"⟩]⟩).nodes := by
  decide

/-- Claim C7 (amended): for every input graph whose every edge endpoint
occurs in the node list, every edge of the directory-aggregated output has
both endpoints present in the output node list. -/
theorem C7_aggregated_edge_endpoints (g : DependencyGraph)
    (hclosed : ∀ e ∈ g.edges, e.source ∈ g.nodes ∧ e.target ∈ g.nodes) :
    ∀ p ∈ (aggregateToDirectory g).edges,
      p.source ∈ (aggregateToDirectory g).nodes
        ∧ p.target ∈ (aggregateToDirectory g).nodes := by
  intro p hp
  obtain ⟨e, he, hme⟩ := aggEdges_sound p g.edges [] hp
  obtain ⟨hs, ht⟩ := hclosed e he
  subst hme
  exact ⟨(mem_dirNodes g _).mpr ⟨e.source, hs, rfl⟩,
    (mem_dirNodes g _).mpr ⟨e.target, ht, rfl⟩⟩

/-- Claim C7 witness: both endpoints of the aggregated edge a→b of the
closed graph ⟨["a/x","b/y"], [a/x→b/y]⟩ are aggregated nodes. -/
theorem C7_witness :
    ((⟨"a", "b"⟩ : Edge) ∈ (aggregateToDirectory ⟨["a/x", "b/y"], [⟨"a/x", "b/y"⟩]⟩).edges)
    ∧ ("a" : String) ∈ (aggregateToDirectory ⟨["a/x", "b/y"], [⟨"a/x", "b/y"⟩]⟩).nodes
    ∧ ("b" : String) ∈ (aggregateToDirectory ⟨["a/x", "b/y"], [⟨"a/x", "b/y"⟩]⟩).nodes :=
  ⟨by decide,
    (C7_aggregated_edge_endpoints ⟨["a/x", "b/y"], [⟨"a/x", "b/y"⟩]⟩ (by decide)
      ⟨"a", "b"⟩ (by decide)).1,
    (C7_aggregated_edge_endpoints ⟨["a/x", "b/y"], [⟨"a/x", "b/y"⟩]⟩ (by decide)
      ⟨"a", "b"⟩ (by decide)).2⟩

/-- Claim C8: when a non-empty graph has no node of in-degree zero, the
candidate-root list is exactly the singleton of the first node of the node
list; on the pure cycle x→y→z→x the forest roots at "x" and contains each
of the 3 nodes exactly once with no duplicates. -/
theorem C8_cycle_fallback :
    (∀ (g : DependencyGraph) (hne : g.nodes ≠ []),
        (∀ n ∈ g.nodes, inDegreeFn g n ≠ 0) → candidateRoots g = [g.nodes.head hne])
    ∧ treeNames (buildForest ⟨["x", "y", "z"], [⟨"x", "y"⟩, ⟨"y", "z"⟩, ⟨"z", "x"⟩]⟩)
        = ["(project)", "x", "y", "z"] :=
  ⟨candidateRoots_fallback, by decide⟩

/-- Claim C8 witness: the fallback applied to the concrete 3-cycle. -/
theorem C8_witness :
    ((⟨["x", "y", "z"], [⟨"x", "y"⟩, ⟨"y", "z"⟩, ⟨"z", "x"⟩]⟩ : DependencyGraph).nodes ≠ [])
    ∧ candidateRoots ⟨["x", "y", "z"], [⟨"x", "y"⟩, ⟨"y", "z"⟩, ⟨"z", "x"⟩]⟩ = ["x"] :=
  ⟨by decide,
    C8_cycle_fallback.1 ⟨["x", "y", "z"], [⟨"x", "y"⟩, ⟨"y", "z"⟩, ⟨"z", "x"⟩]⟩
      (by decide) (by decide)⟩

/-- Claim C9: every node id with no "/" separator — including one literally
named "(root)" — maps to the sentinel "(root)", the sentinel occurs at most
once in the aggregated node list (all such nodes merge), and every edge
between two separator-free ids becomes a self-loop at the sentinel and is
dropped from the aggregated edges. -/
theorem C9_root_sentinel :
    (∀ s : String, '/' ∉ s.data → getDir s = "(root)")
    ∧ getDir "(root)" = "(root)"
    ∧ (∀ g : DependencyGraph, (aggregateToDirectory g).nodes.count "(root)" ≤ 1)
    ∧ (∀ (g : DependencyGraph) (e : Edge), e ∈ g.edges →
        '/' ∉ e.source.data → '/' ∉ e.target.data →
        getDir e.source = getDir e.target
          ∧ mapEdge e ∉ (aggregateToDirectory g).edges) := by
  refine ⟨getDir_of_no_slash, by decide, ?_, ?_⟩
  · intro g
    exact List.nodup_iff_count_le_one.mp (nodup_dirNodes g) _
  · intro g e he hs ht
    have hself : getDir e.source = getDir e.target := by
      rw [getDir_of_no_slash _ hs, getDir_of_no_slash _ ht]
    exact ⟨hself, fun hmem => aggEdges_nonself (mapEdge e) g.edges [] hmem hself⟩

/-- Claim C9 witness: the separator-free id "abc" maps to the sentinel. -/
theorem C9_witness :
    ('/' ∉ ("abc" : String).data) ∧ getDir "abc" = "(root)" :=
  ⟨by decide, C9_root_sentinel.1 "abc" (by decide)⟩

/-- Claim C10 counterexample: the empty string is a non-null selected id,
yet the resolver returns null for it (JavaScript `!selectedNode` is true for
the empty string), even though the claim promises a non-null detail for
every non-null id. -/
theorem C10_counterexample :
    nodeDetail (some "") ⟨["a"], []⟩ = none
    ∧ ("" : String) ∉ (⟨["a"], []⟩ : DependencyGraph).nodes := by
  decide

/-- Claim C10 (amended): for every non-null, non-empty selected node id the
resolver returns a non-null detail computed solely by scanning the displayed
edge list — regardless of whether the id occurs in the displayed node list —
and the lists are empty when no displayed edge mentions the id. -/
theorem C10_selection_detail (g : DependencyGraph) (i : String) (hne : i ≠ "") :
    nodeDetail (some i) g =
      some ⟨i, (g.edges.filter (fun e => e.source == i)).map (fun e => e.target),
        (g.edges.filter (fun e => e.target == i)).map (fun e => e.source)⟩
    ∧ ((∀ e ∈ g.edges, e.source ≠ i ∧ e.target ≠ i) →
        nodeDetail (some i) g = some ⟨i, [], []⟩) := by
  constructor
  · simp [nodeDetail, hne]
  · intro hnone
    have h1 : g.edges.filter (fun e => e.source == i) = [] := by
      rw [List.filter_eq_nil_iff]
      intro e he
      simp only [beq_iff_eq]
      exact (hnone e he).1
    have h2 : g.edges.filter (fun e => e.target == i) = [] := by
      rw [List.filter_eq_nil_iff]
      intro e he
      simp only [beq_iff_eq]
      exact (hnone e he).2
    simp [nodeDetail, hne, h1, h2]

/-- Claim C10 witness: a non-empty id absent from the displayed node list
still yields a non-null detail, with empty lists since no edge mentions
it. -/
theorem C10_witness :
    (("zzz" : String) ≠ "")
    ∧ ("zzz" : String) ∉ (⟨["a"], [⟨"a", "b"⟩]⟩ : DependencyGraph).nodes
    ∧ nodeDetail (some "zzz") ⟨["a"], [⟨"a", "b"⟩]⟩ = some ⟨"zzz", [], []⟩ :=
  ⟨by decide, by decide,
    (C10_selection_detail ⟨["a"], [⟨"a", "b"⟩]⟩ "zzz" (by decide)).2 (by decide)⟩
